import Mathlib

/-!
Verification of the knowledge-domain store in `servers/context.py`.

The Python module exposes five tools over a LanceDB connection:
`create_domain`, `delete_domain`, `list_domains`, `add_knowledge`, `search`.
This file gives a shallow embedding of those tools.  The external
collaborators (the LanceDB storage engine, the OpenAI embedding provider and
the `pydantic_core` JSON codec) are modelled explicitly:

* the storage engine is a state value (`Engine`) holding the live tables in
  creation order, together with fault oracles that decide which engine calls
  raise, and a distance function standing for the embedding model composed
  with the vector metric (floating point distances are modelled by `Nat`,
  which preserves the ordering behaviour the code relies on);
* the `pydantic_core` `to_json` / `from_json` pair is modelled by a real
  executable renderer and parser over an inductive `Json` value type
  (numbers are modelled by integers), so that the metadata round trip is a
  theorem rather than an assumption.
-/

/-- Structured metadata values, the Lean counterpart of the JSON-representable
Python values fed to `pydantic_core.to_json` (numbers modelled by `Int`,
object fields kept in order as an association list). -/
inductive Json where
  | null : Json
  | bool (b : Bool) : Json
  | num (n : Int) : Json
  | str (s : List Char) : Json
  | arr (elems : List Json) : Json
  | obj (fields : List (List Char × Json)) : Json

/-- JSON string-body escaping: `"` and `\` are escaped with a backslash,
every other character is emitted verbatim (model of the serializer's string
quoting). -/
def escapeString : List Char → List Char
  | [] => []
  | c :: cs => if c = '"' ∨ c = '\\' then '\\' :: c :: escapeString cs else c :: escapeString cs

/-- Decimal digit characters of a natural number, most significant first. -/
def natChars (n : Nat) : List Char :=
  if n = 0 then ['0'] else ((Nat.digits 10 n).reverse.map Nat.digitChar)

/-- Decimal rendering of an integer. -/
def renderNum (n : Int) : List Char :=
  if n < 0 then '-' :: natChars n.natAbs else natChars n.natAbs

/-- Characters of the `null` keyword. -/
def nullChars : List Char := ['n', 'u', 'l', 'l']

/-- Characters of the `true` keyword. -/
def trueChars : List Char := ['t', 'r', 'u', 'e']

/-- Characters of the `false` keyword. -/
def falseChars : List Char := ['f', 'a', 'l', 's', 'e']

mutual

/-- Compact JSON rendering of a value (model of `pydantic_core.to_json`). -/
def render : Json → List Char
  | .null => nullChars
  | .bool true => trueChars
  | .bool false => falseChars
  | .num n => renderNum n
  | .str s => '"' :: (escapeString s ++ ['"'])
  | .arr [] => ['[', ']']
  | .arr (v :: vs) => '[' :: (render v ++ renderArrTail vs)
  | .obj [] => ['\x7b', '\x7d']
  | .obj ((k, v) :: fs) =>
      '\x7b' :: ('"' :: (escapeString k ++ '"' :: ':' ::
        (render v ++ renderObjTail fs)))

/-- Remaining array elements, each preceded by a comma, then `]`. -/
def renderArrTail : List Json → List Char
  | [] => [']']
  | v :: vs => ',' :: (render v ++ renderArrTail vs)

/-- Remaining object fields, each preceded by a comma, then `}`. -/
def renderObjTail : List (List Char × Json) → List Char
  | [] => ['\x7d']
  | (k, v) :: fs =>
      ',' :: ('"' :: (escapeString k ++ '"' :: ':' :: (render v ++ renderObjTail fs)))

end

/-- `to_json` of the Python code: serialize a structured value to a string. -/
def to_json (v : Json) : String := String.mk (render v)

/-- Digit value of a decimal digit character. -/
def charDigit (c : Char) : Nat := c.toNat - 48

/-- Split off the longest leading run of decimal digit characters. -/
def takeDigits : List Char → List Char × List Char
  | [] => ([], [])
  | c :: r =>
      if c.isDigit then
        let p := takeDigits r
        (c :: p.1, p.2)
      else ([], c :: r)

/-- Numeric value of a digit-character run, most significant first. -/
def digitsToNat (ds : List Char) : Nat :=
  ds.foldl (fun a c => 10 * a + charDigit c) 0

/-- Parse a nonempty run of decimal digits into a natural number. -/
def parseNat (cs : List Char) : Option (Nat × List Char) :=
  match takeDigits cs with
  | ([], _) => none
  | (d :: ds, r) => some (digitsToNat (d :: ds), r)

/-- Parse the body of a JSON string literal after the opening quote, undoing
`escapeString`; returns the decoded characters and the input after the
closing quote. -/
def parseStrBody : List Char → Option (List Char × List Char)
  | [] => none
  | c :: r =>
    if c = '"' then some ([], r)
    else if c = '\\' then
      match r with
      | [] => none
      | c2 :: r2 =>
        match parseStrBody r2 with
        | none => none
        | some (s, r3) => some (c2 :: s, r3)
    else
      match parseStrBody r with
      | none => none
      | some (s, r3) => some (c :: s, r3)

/-- Match an expected literal character sequence at the head of the input,
returning the remaining input on success. -/
def expectChars : List Char → List Char → Option (List Char)
  | [], cs => some cs
  | _ :: _, [] => none
  | p :: ps, c :: cs => if c = p then expectChars ps cs else none

theorem expectChars_append (ps rest : List Char) :
    expectChars ps (ps ++ rest) = some rest := by
  induction ps with
  | nil => rfl
  | cons p ps ih => simp [expectChars, ih]

mutual

/-- Fuel-indexed JSON value parser (model of `pydantic_core.from_json`);
returns the parsed value and the remaining input. -/
def parseVal : Nat → List Char → Option (Json × List Char)
  | 0, _ => none
  | _ + 1, [] => none
  | fuel + 1, c :: r =>
    if c = 'n' then
      match expectChars ['u', 'l', 'l'] r with
      | none => none
      | some r2 => some (.null, r2)
    else if c = 't' then
      match expectChars ['r', 'u', 'e'] r with
      | none => none
      | some r2 => some (.bool true, r2)
    else if c = 'f' then
      match expectChars ['a', 'l', 's', 'e'] r with
      | none => none
      | some r2 => some (.bool false, r2)
    else if c = '"' then
      match parseStrBody r with
      | none => none
      | some (s, r2) => some (.str s, r2)
    else if c = '[' then
      match expectChars [']'] r with
      | some r2 => some (.arr [], r2)
      | none =>
        match parseVal fuel r with
        | none => none
        | some (v, r3) =>
          match parseArrTail fuel r3 with
          | none => none
          | some (vs, r4) => some (.arr (v :: vs), r4)
    else if c = '\x7b' then
      match expectChars ['\x7d'] r with
      | some r2 => some (.obj [], r2)
      | none =>
        match expectChars ['"'] r with
        | none => none
        | some r2 =>
          match parseStrBody r2 with
          | none => none
          | some (k, r3) =>
            match expectChars [':'] r3 with
            | none => none
            | some r4 =>
              match parseVal fuel r4 with
              | none => none
              | some (v, r5) =>
                match parseObjTail fuel r5 with
                | none => none
                | some (fs, r6) => some (.obj ((k, v) :: fs), r6)
    else if c = '-' then
      match parseNat r with
      | none => none
      | some (m, r2) => some (.num (-(m : Int)), r2)
    else if c.isDigit then
      match parseNat (c :: r) with
      | none => none
      | some (m, r2) => some (.num (m : Int), r2)
    else none

/-- Parse the remainder of a JSON array after its first element: a sequence
of comma-preceded elements closed by `]`. -/
def parseArrTail : Nat → List Char → Option (List Json × List Char)
  | 0, _ => none
  | _ + 1, [] => none
  | fuel + 1, c :: r =>
    if c = ']' then some ([], r)
    else if c = ',' then
      match parseVal fuel r with
      | none => none
      | some (v, r2) =>
        match parseArrTail fuel r2 with
        | none => none
        | some (vs, r3) => some (v :: vs, r3)
    else none

/-- Parse the remainder of a JSON object after its first field: a sequence
of comma-preceded `"key":value` fields closed by `}`. -/
def parseObjTail : Nat → List Char → Option (List (List Char × Json) × List Char)
  | 0, _ => none
  | _ + 1, [] => none
  | fuel + 1, c :: r =>
    if c = '\x7d' then some ([], r)
    else if c = ',' then
      match expectChars ['"'] r with
      | none => none
      | some r2 =>
        match parseStrBody r2 with
        | none => none
        | some (k, r3) =>
          match expectChars [':'] r3 with
          | none => none
          | some r4 =>
            match parseVal fuel r4 with
            | none => none
            | some (v, r5) =>
              match parseObjTail fuel r5 with
              | none => none
              | some (fs, r6) => some ((k, v) :: fs, r6)
    else none

end

/-- `from_json` of the Python code: parse a string as one JSON value,
requiring the whole input to be consumed; `none` models a raised
deserialization error. -/
def from_json (s : String) : Option Json :=
  match parseVal (2 * s.data.length + 2) s.data with
  | none => none
  | some (v, rest) => if rest = [] then some v else none

mutual

/-- Fuel measure of a JSON value for the parser round-trip induction. -/
def sizeJ : Json → Nat
  | .null => 1
  | .bool _ => 1
  | .num _ => 1
  | .str _ => 1
  | .arr vs => 1 + sizeL vs
  | .obj fs => 1 + sizeF fs

/-- Fuel measure of an array tail. -/
def sizeL : List Json → Nat
  | [] => 1
  | v :: vs => 1 + sizeJ v + sizeL vs

/-- Fuel measure of an object tail. -/
def sizeF : List (List Char × Json) → Nat
  | [] => 1
  | (_, v) :: fs => 1 + sizeJ v + sizeF fs

end

theorem sizeJ_pos (v : Json) : 1 ≤ sizeJ v := by
  cases v <;> simp [sizeJ]

theorem sizeL_pos (vs : List Json) : 1 ≤ sizeL vs := by
  cases vs <;> simp [sizeL] <;> omega

theorem sizeF_pos (fs : List (List Char × Json)) : 1 ≤ sizeF fs := by
  cases fs with
  | nil => simp [sizeF]
  | cons f fs => obtain ⟨k, v⟩ := f; simp [sizeF]; omega

theorem charDigit_digitChar {d : Nat} (hd : d < 10) :
    charDigit (Nat.digitChar d) = d := by
  interval_cases d <;> decide

theorem isDigit_digitChar {d : Nat} (hd : d < 10) :
    (Nat.digitChar d).isDigit = true := by
  interval_cases d <;> decide

theorem natChars_ne_nil (n : Nat) : natChars n ≠ [] := by
  unfold natChars
  split
  · simp
  · next h =>
    simp only [ne_eq, List.map_eq_nil_iff, List.reverse_eq_nil_iff]
    exact Nat.digits_ne_nil_iff_ne_zero.mpr h

theorem natChars_all_digit (n : Nat) : ∀ c ∈ natChars n, c.isDigit = true := by
  intro c hc
  unfold natChars at hc
  split at hc
  · simp at hc; subst hc; decide
  · simp only [List.mem_map, List.mem_reverse] at hc
    obtain ⟨d, hd, rfl⟩ := hc
    exact isDigit_digitChar (Nat.digits_lt_base (by norm_num) hd)

theorem foldl_base10 (l : List Nat) (a : Nat) :
    List.foldl (fun a d => 10 * a + d) a l.reverse =
      a * 10 ^ l.length + Nat.ofDigits 10 l := by
  induction l generalizing a with
  | nil => simp
  | cons d t ih =>
    simp only [List.reverse_cons, List.foldl_append, List.foldl_cons, List.foldl_nil,
      List.length_cons, Nat.ofDigits_cons, ih]
    ring

theorem foldl_map_digitChar (l : List Nat) (h : ∀ d ∈ l, d < 10) (a : Nat) :
    List.foldl (fun a c => 10 * a + charDigit c) a (l.map Nat.digitChar) =
      List.foldl (fun a d => 10 * a + d) a l := by
  induction l generalizing a with
  | nil => rfl
  | cons d t ih =>
    simp only [List.map_cons, List.foldl_cons]
    rw [charDigit_digitChar (h d (by simp))]
    exact ih (fun x hx => h x (by simp [hx])) _

theorem digitsToNat_natChars (n : Nat) : digitsToNat (natChars n) = n := by
  unfold natChars
  split
  · next h => subst h; decide
  · next h =>
    unfold digitsToNat
    rw [foldl_map_digitChar ((Nat.digits 10 n).reverse)
      (fun d hd => Nat.digits_lt_base (by norm_num) (List.mem_reverse.mp hd)),
      foldl_base10]
    simp [Nat.ofDigits_digits]

/-- The head of `cs` is not a decimal digit (trivially true for `[]`). -/
def nonDigitHead : List Char → Bool
  | [] => true
  | c :: _ => !c.isDigit

theorem takeDigits_append (ds rest : List Char) (hds : ∀ c ∈ ds, c.isDigit = true)
    (hr : nonDigitHead rest = true) : takeDigits (ds ++ rest) = (ds, rest) := by
  induction ds with
  | nil =>
    simp only [List.nil_append]
    cases rest with
    | nil => rfl
    | cons c r =>
      simp only [nonDigitHead, Bool.not_eq_true'] at hr
      simp [takeDigits, hr]
  | cons c t ih =>
    have ih' := ih fun x hx => hds x (by simp [hx])
    simp [takeDigits, hds c (by simp), ih']

theorem parseNat_natChars (n : Nat) (rest : List Char) (hr : nonDigitHead rest = true) :
    parseNat (natChars n ++ rest) = some (n, rest) := by
  unfold parseNat
  rw [takeDigits_append _ _ (natChars_all_digit n) hr]
  obtain ⟨c, cs, hc⟩ : ∃ c cs, natChars n = c :: cs := by
    cases h : natChars n with
    | nil => exact absurd h (natChars_ne_nil n)
    | cons c cs => exact ⟨c, cs, rfl⟩
  rw [hc]
  simp only [← hc, digitsToNat_natChars]

theorem parseStrBody_escape (s rest : List Char) :
    parseStrBody (escapeString s ++ '"' :: rest) = some (s, rest) := by
  induction s with
  | nil =>
    show parseStrBody ('"' :: rest) = some ([], rest)
    unfold parseStrBody
    rfl
  | cons c cs ih =>
    by_cases hc : c = '"' ∨ c = '\\'
    · rw [show escapeString (c :: cs) = '\\' :: c :: escapeString cs from if_pos hc]
      simp only [List.cons_append]
      unfold parseStrBody
      simp [ih]
    · rw [show escapeString (c :: cs) = c :: escapeString cs from if_neg hc]
      push_neg at hc
      simp only [List.cons_append]
      unfold parseStrBody
      rw [if_neg hc.1, if_neg hc.2, ih]

theorem isDigit_ne {c : Char} (h : c.isDigit = true) :
    c ≠ 'n' ∧ c ≠ 't' ∧ c ≠ 'f' ∧ c ≠ '"' ∧ c ≠ '[' ∧ c ≠ '\x7b' ∧
      c ≠ '-' ∧ c ≠ ']' := by
  refine ⟨?_, ?_, ?_, ?_, ?_, ?_, ?_, ?_⟩ <;>
    (intro hc; subst hc; simp at h)

theorem render_head (v : Json) : ∃ c cr, render v = c :: cr ∧ c ≠ ']' := by
  cases v with
  | null => exact ⟨'n', ['u', 'l', 'l'], by simp [render, nullChars], by decide⟩
  | bool b =>
    cases b with
    | true => exact ⟨'t', ['r', 'u', 'e'], by simp [render, trueChars], by decide⟩
    | false => exact ⟨'f', ['a', 'l', 's', 'e'], by simp [render, falseChars], by decide⟩
  | num k =>
    by_cases hk : k < 0
    · exact ⟨'-', natChars k.natAbs, by simp [render, renderNum, hk], by decide⟩
    · obtain ⟨c, cr, hc⟩ : ∃ c cr, natChars k.natAbs = c :: cr := by
        cases h : natChars k.natAbs with
        | nil => exact absurd h (natChars_ne_nil _)
        | cons c cr => exact ⟨c, cr, rfl⟩
      have hd : c.isDigit = true := natChars_all_digit k.natAbs c (by simp [hc])
      exact ⟨c, cr, by simp [render, renderNum, hk, hc], (isDigit_ne hd).2.2.2.2.2.2.2⟩
  | str s => exact ⟨'"', escapeString s ++ ['"'], by simp [render], by decide⟩
  | arr vs =>
    cases vs with
    | nil => exact ⟨'[', [']'], by simp [render], by decide⟩
    | cons v vs =>
      exact ⟨'[', render v ++ renderArrTail vs, by simp [render], by decide⟩
  | obj fs =>
    cases fs with
    | nil => exact ⟨'\x7b', ['\x7d'], by simp [render], by decide⟩
    | cons f fs =>
      obtain ⟨k, v⟩ := f
      exact ⟨'\x7b', '"' :: (escapeString k ++ '"' :: ':' :: (render v ++ renderObjTail fs)),
        by simp [render], by decide⟩

theorem nonDigitHead_arrTail (vs : List Json) (rest : List Char) :
    nonDigitHead (renderArrTail vs ++ rest) = true := by
  cases vs <;> simp [renderArrTail, nonDigitHead]

theorem nonDigitHead_objTail (fs : List (List Char × Json)) (rest : List Char) :
    nonDigitHead (renderObjTail fs ++ rest) = true := by
  cases fs with
  | nil => simp [renderObjTail, nonDigitHead]
  | cons f fs => obtain ⟨k, v⟩ := f; simp [renderObjTail, nonDigitHead]

theorem size_render_aux : ∀ n : Nat,
    (∀ v : Json, sizeJ v ≤ n → sizeJ v ≤ 2 * (render v).length) ∧
    (∀ vs : List Json, sizeL vs ≤ n → sizeL vs ≤ 2 * (renderArrTail vs).length) ∧
    (∀ fs : List (List Char × Json), sizeF fs ≤ n →
      sizeF fs ≤ 2 * (renderObjTail fs).length) := by
  intro n
  induction n with
  | zero =>
    exact ⟨fun v h => absurd h (by have := sizeJ_pos v; omega),
           fun vs h => absurd h (by have := sizeL_pos vs; omega),
           fun fs h => absurd h (by have := sizeF_pos fs; omega)⟩
  | succ n ih =>
    obtain ⟨ihV, ihA, ihO⟩ := ih
    refine ⟨?_, ?_, ?_⟩
    · intro v hs
      cases v with
      | null => simp [render, nullChars, sizeJ]
      | bool b => cases b <;> simp [render, trueChars, falseChars, sizeJ]
      | num k =>
        have h1 : 1 ≤ (renderNum k).length := by
          unfold renderNum
          split
          · simp only [List.length_cons]; omega
          · have := natChars_ne_nil k.natAbs
            cases h : natChars k.natAbs with
            | nil => exact absurd h this
            | cons c cr => simp [h]
        simp only [render, sizeJ]; omega
      | str s => simp only [render, sizeJ, List.length_cons, List.length_append]; omega
      | arr vs =>
        cases vs with
        | nil => simp [render, sizeJ, sizeL]
        | cons w ws =>
          simp only [sizeJ, sizeL] at hs ⊢
          have hw := ihV w (by omega)
          have hws := ihA ws (by omega)
          simp only [render, List.length_cons, List.length_append]
          omega
      | obj fs =>
        cases fs with
        | nil => simp [render, sizeJ, sizeF]
        | cons f fs =>
          obtain ⟨k, w⟩ := f
          simp only [sizeJ, sizeF] at hs ⊢
          have hw := ihV w (by omega)
          have hfs := ihO fs (by omega)
          simp only [render, List.length_cons, List.length_append]
          omega
    · intro vs hs
      cases vs with
      | nil => simp [renderArrTail, sizeL]
      | cons w ws =>
        simp only [sizeL] at hs ⊢
        have hw := ihV w (by omega)
        have hws := ihA ws (by omega)
        simp only [renderArrTail, List.length_cons, List.length_append]
        omega
    · intro fs hs
      cases fs with
      | nil => simp [renderObjTail, sizeF]
      | cons f fs =>
        obtain ⟨k, w⟩ := f
        simp only [sizeF] at hs ⊢
        have hw := ihV w (by omega)
        have hfs := ihO fs (by omega)
        simp only [renderObjTail, List.length_cons, List.length_append]
        omega

theorem sizeJ_le_render (v : Json) : sizeJ v ≤ 2 * (render v).length :=
  (size_render_aux (sizeJ v)).1 v le_rfl

theorem parse_render_aux : ∀ fuel : Nat,
    (∀ v : Json, ∀ rest : List Char, sizeJ v ≤ fuel → nonDigitHead rest = true →
      parseVal fuel (render v ++ rest) = some (v, rest)) ∧
    (∀ vs : List Json, ∀ rest : List Char, sizeL vs ≤ fuel →
      parseArrTail fuel (renderArrTail vs ++ rest) = some (vs, rest)) ∧
    (∀ fs : List (List Char × Json), ∀ rest : List Char, sizeF fs ≤ fuel →
      parseObjTail fuel (renderObjTail fs ++ rest) = some (fs, rest)) := by
  intro fuel
  induction fuel with
  | zero =>
    exact ⟨fun v _ h _ => absurd h (by have := sizeJ_pos v; omega),
           fun vs _ h => absurd h (by have := sizeL_pos vs; omega),
           fun fs _ h => absurd h (by have := sizeF_pos fs; omega)⟩
  | succ n ih =>
    obtain ⟨ihV, ihA, ihO⟩ := ih
    refine ⟨?_, ?_, ?_⟩
    · intro v rest hs hr
      cases v with
      | null =>
        rw [show render Json.null = ['n', 'u', 'l', 'l'] from by simp [render, nullChars]]
        simp only [List.cons_append, List.nil_append]
        unfold parseVal
        simp [expectChars]
      | bool b =>
        cases b with
        | true =>
          rw [show render (Json.bool true) = ['t', 'r', 'u', 'e'] from by
            simp [render, trueChars]]
          simp only [List.cons_append, List.nil_append]
          unfold parseVal
          simp [expectChars]
        | false =>
          rw [show render (Json.bool false) = ['f', 'a', 'l', 's', 'e'] from by
            simp [render, falseChars]]
          simp only [List.cons_append, List.nil_append]
          unfold parseVal
          simp [expectChars]
      | num k =>
        by_cases hk : k < 0
        · rw [show render (Json.num k) = '-' :: natChars k.natAbs from by
            simp [render, renderNum, hk]]
          simp only [List.cons_append]
          unfold parseVal
          rw [parseNat_natChars k.natAbs rest hr,
            if_neg (show ¬ ('-' : Char) = 'n' by decide),
            if_neg (show ¬ ('-' : Char) = 't' by decide),
            if_neg (show ¬ ('-' : Char) = 'f' by decide),
            if_neg (show ¬ ('-' : Char) = '"' by decide),
            if_neg (show ¬ ('-' : Char) = '[' by decide),
            if_neg (show ¬ ('-' : Char) = '\x7b' by decide),
            if_pos rfl]
          show some (Json.num (-((k.natAbs : Nat) : Int)), rest) = some (Json.num k, rest)
          have hovm : -((k.natAbs : Nat) : Int) = k := by omega
          rw [hovm]
        · obtain ⟨c, cr, hc⟩ : ∃ c cr, natChars k.natAbs = c :: cr := by
            cases h : natChars k.natAbs with
            | nil => exact absurd h (natChars_ne_nil _)
            | cons c cr => exact ⟨c, cr, rfl⟩
          have hd : c.isDigit = true := natChars_all_digit k.natAbs c (by simp [hc])
          obtain ⟨h1, h2, h3, h4, h5, h6, h7, _⟩ := isDigit_ne hd
          rw [show render (Json.num k) = natChars k.natAbs from by
            simp [render, renderNum, hk], hc]
          simp only [List.cons_append]
          unfold parseVal
          rw [if_neg h1, if_neg h2, if_neg h3, if_neg h4, if_neg h5, if_neg h6,
            if_neg h7, if_pos hd,
            show c :: (cr ++ rest) = natChars k.natAbs ++ rest from by simp [hc],
            parseNat_natChars k.natAbs rest hr]
          show some (Json.num ((k.natAbs : Nat) : Int), rest) = some (Json.num k, rest)
          have hovm : ((k.natAbs : Nat) : Int) = k := by omega
          rw [hovm]
      | str s =>
        rw [show render (Json.str s) = '"' :: (escapeString s ++ ['"']) from by
          simp [render]]
        simp only [List.cons_append, List.append_assoc, List.singleton_append,
          List.nil_append]
        unfold parseVal
        rw [parseStrBody_escape s rest]
        simp
      | arr vs =>
        cases vs with
        | nil =>
          rw [show render (Json.arr []) = ['[', ']'] from by simp [render]]
          simp only [List.cons_append, List.nil_append]
          unfold parseVal
          simp [expectChars]
        | cons w ws =>
          obtain ⟨c, cr, hcw, hcne⟩ := render_head w
          have hsw : sizeJ w ≤ n := by simp only [sizeJ, sizeL] at hs; omega
          have hsl : sizeL ws ≤ n := by
            have := sizeJ_pos w
            simp only [sizeJ, sizeL] at hs; omega
          have hV := ihV w (renderArrTail ws ++ rest) hsw (nonDigitHead_arrTail ws rest)
          have hA := ihA ws rest hsl
          have hexp : expectChars [']'] (render w ++ (renderArrTail ws ++ rest)) = none := by
            rw [hcw]
            simp [expectChars, hcne]
          rw [show render (Json.arr (w :: ws)) = '[' :: (render w ++ renderArrTail ws)
            from by simp [render]]
          simp only [List.cons_append, List.append_assoc]
          unfold parseVal
          rw [if_neg (show ¬ ('[' : Char) = 'n' by decide),
            if_neg (show ¬ ('[' : Char) = 't' by decide),
            if_neg (show ¬ ('[' : Char) = 'f' by decide),
            if_neg (show ¬ ('[' : Char) = '"' by decide),
            if_pos rfl, hexp, hV]
          simp [hA]
      | obj fs =>
        cases fs with
        | nil =>
          rw [show render (Json.obj []) = ['\x7b', '\x7d'] from by simp [render]]
          simp only [List.cons_append, List.nil_append]
          unfold parseVal
          simp [expectChars]
        | cons f fs =>
          obtain ⟨k, w⟩ := f
          have hsw : sizeJ w ≤ n := by simp only [sizeJ, sizeF] at hs; omega
          have hsf : sizeF fs ≤ n := by
            have := sizeJ_pos w
            simp only [sizeJ, sizeF] at hs; omega
          have hV := ihV w (renderObjTail fs ++ rest) hsw (nonDigitHead_objTail fs rest)
          have hO := ihO fs rest hsf
          rw [show render (Json.obj ((k, w) :: fs)) =
              '\x7b' :: ('"' :: (escapeString k ++ '"' :: ':' ::
                (render w ++ renderObjTail fs))) from by simp [render]]
          simp only [List.cons_append, List.append_assoc]
          unfold parseVal
          rw [if_neg (show ¬ ('\x7b' : Char) = 'n' by decide),
            if_neg (show ¬ ('\x7b' : Char) = 't' by decide),
            if_neg (show ¬ ('\x7b' : Char) = 'f' by decide),
            if_neg (show ¬ ('\x7b' : Char) = '"' by decide),
            if_neg (show ¬ ('\x7b' : Char) = '[' by decide),
            if_pos rfl]
          simp [expectChars, parseStrBody_escape, hV, hO]
    · intro vs rest hs
      cases vs with
      | nil =>
        rw [show renderArrTail ([] : List Json) = [']'] from by simp [renderArrTail]]
        simp only [List.cons_append, List.nil_append]
        unfold parseArrTail
        simp
      | cons w ws =>
        have hsw : sizeJ w ≤ n := by simp only [sizeL] at hs; omega
        have hsl : sizeL ws ≤ n := by
          have := sizeJ_pos w
          simp only [sizeL] at hs; omega
        have hV := ihV w (renderArrTail ws ++ rest) hsw (nonDigitHead_arrTail ws rest)
        have hA := ihA ws rest hsl
        rw [show renderArrTail (w :: ws) = ',' :: (render w ++ renderArrTail ws) from by
          simp [renderArrTail]]
        simp only [List.cons_append, List.append_assoc]
        unfold parseArrTail
        rw [if_neg (show ¬ (',' : Char) = ']' by decide), if_pos rfl, hV]
        simp [hA]
    · intro fs rest hs
      cases fs with
      | nil =>
        rw [show renderObjTail ([] : List (List Char × Json)) = ['\x7d'] from by
          simp [renderObjTail]]
        simp only [List.cons_append, List.nil_append]
        unfold parseObjTail
        simp
      | cons f fs =>
        obtain ⟨k, w⟩ := f
        have hsw : sizeJ w ≤ n := by simp only [sizeF] at hs; omega
        have hsf : sizeF fs ≤ n := by
          have := sizeJ_pos w
          simp only [sizeF] at hs; omega
        have hV := ihV w (renderObjTail fs ++ rest) hsw (nonDigitHead_objTail fs rest)
        have hO := ihO fs rest hsf
        rw [show renderObjTail ((k, w) :: fs) =
            ',' :: ('"' :: (escapeString k ++ '"' :: ':' ::
              (render w ++ renderObjTail fs))) from by simp [renderObjTail]]
        simp only [List.cons_append, List.append_assoc]
        unfold parseObjTail
        rw [if_neg (show ¬ (',' : Char) = '\x7d' by decide), if_pos rfl]
        simp [expectChars, parseStrBody_escape, hV, hO]

/-- Metadata values survive the serialize → deserialize round trip: the model
of `from_json ∘ to_json` is the identity. -/
theorem from_json_to_json (v : Json) : from_json (to_json v) = some v := by
  unfold from_json to_json
  have hdata : (String.mk (render v)).data = render v := rfl
  rw [hdata]
  have hsz : sizeJ v ≤ 2 * (render v).length + 2 := by
    have := sizeJ_le_render v; omega
  have hmain := (parse_render_aux (2 * (render v).length + 2)).1 v [] hsz (by rfl)
  rw [List.append_nil] at hmain
  rw [hmain]
  simp

/-- A stored row of the `Document` schema in `context.py`: the source text,
optional provenance, and the optional metadata JSON string column.  The
embedding `vector` column is derived from `text` by the engine; it is
represented by the engine's distance oracle rather than stored coordinates. -/
structure Document where
  text : String
  source : Option String
  metadata : Option String

/-- A row as returned by the engine's
`search(query).select(["text", "source", "metadata", "_distance"]).to_list()`:
the selected columns plus the `_distance` score. -/
structure SRow where
  text : String
  source : Option String
  metadata : Option String
  distance : Nat

/-- Model of the LanceDB connection state plus the engine's behaviour:
`tables` holds the live tables (name, rows) in creation order; `dist` models
the embedding provider composed with the vector metric (the distance of a
query to a stored text, with `Nat` standing for the float score); the
`*Fail` oracles decide which engine calls raise, `some msg` being the
exception message (they model storage faults, upstream embedding failures
and mid-call races). -/
structure Engine where
  tables : List (String × List Document)
  dist : String → String → Nat
  createFail : String → Option String
  dropFail : String → Option String
  addFail : String → Option String
  searchFail : String → Option String
  listFail : Option String

/-- Replace the rows of table `d`, keeping every table in place. -/
def updateTable (ts : List (String × List Document)) (d : String)
    (rows : List Document) : List (String × List Document) :=
  ts.map fun p => if p.1 = d then (d, rows) else p

/-- Model of the engine's table-not-found exception message. -/
def notFoundMsg (name : String) : String := "Table " ++ name ++ " was not found"

/-- Insert into a list sorted by ascending `key`. -/
def insertLe {α : Type} (key : α → Nat) (a : α) : List α → List α
  | [] => [a]
  | b :: bs => if key a ≤ key b then a :: b :: bs else b :: insertLe key a bs

/-- Sort by ascending `key` (model of the engine ranking matches by
ascending distance). -/
def sortLe {α : Type} (key : α → Nat) : List α → List α
  | [] => []
  | a :: as => insertLe key a (sortLe key as)

/-- Model of `table.search(query).select([...]).limit(limit).to_list()`:
rank all rows by ascending distance of their text to the query and keep at
most `limit` of them (a non-positive limit yields no rows). -/
def engineSearch (dst : String → String → Nat) (q : String) (rows : List Document)
    (lim : Int) : List SRow :=
  ((sortLe (fun r => dst q r.text) rows).map
    (fun r => SRow.mk r.text r.source r.metadata (dst q r.text))).take lim.toNat

/-- The value under the `metadata` key of a returned hit dict: left absent
(stored NULL), left as the raw falsy string (stored `""`), or deserialized
back to a structured value. -/
inductive MetaOut where
  | absent : MetaOut
  | raw (s : String) : MetaOut
  | parsed (j : Json) : MetaOut

/-- One hit dict of a successful per-domain search: the selected columns
with metadata deserialized, the `_distance` score, and the origin `domain`
tag added by the loop in `search`. -/
structure Hit where
  text : String
  source : Option String
  metadata : MetaOut
  distance : Nat
  domain : String

/-- One element of the list returned by `search`: a hit dict, or the
`{"error": ...}` marker dict appended when a domain's search raises. -/
inductive Entry where
  | hit (h : Hit) : Entry
  | failure (error : String) : Entry

/-- The inline error-marker message of `search` (quotes around the domain
name elided). -/
def searchFailMsg (d msg : String) : String :=
  "Failed to search domain " ++ d ++ ": " ++ msg

/-- Model of the deserializer's exception message on malformed stored
metadata. -/
def jsonErrMsg : String := "invalid JSON"

/-- Deserialization of one stored metadata value by the result loop of
`search` (`.error` models `from_json` raising on malformed JSON): a falsy
stored value — NULL or the empty string — is left as is, anything else is
parsed. -/
def readMeta (d : String) (r : SRow) : Option String → Except String Hit
  | none => .ok ⟨r.text, r.source, .absent, r.distance, d⟩
  | some s =>
    if s = "" then .ok ⟨r.text, r.source, .raw s, r.distance, d⟩
    else
      match from_json s with
      | some j => .ok ⟨r.text, r.source, .parsed j, r.distance, d⟩
      | none => .error jsonErrMsg

/-- The per-row body of the result loop in `search`: deserialize truthy
metadata and tag the row with its origin domain. -/
def readRow (d : String) (r : SRow) : Except String Hit :=
  readMeta d r r.metadata

/-- The result loop of `search` for one domain: rows are appended as hits in
order; a row whose metadata fails to deserialize raises inside the `try`, so
the loop stops and the error marker is appended after the hits already
produced. -/
def processRows (d : String) : List SRow → List Entry
  | [] => []
  | r :: rest =>
    match readRow d r with
    | .ok h => .hit h :: processRows d rest
    | .error m => [.failure (searchFailMsg d m)]

/-- One iteration of the domain loop in `search` (the whole `try` block):
open the table and run the per-domain search, contributing either the
processed hits or a single inline error marker. -/
def searchDomain (e : Engine) (q : String) (lim : Int) (d : String) : List Entry :=
  match e.searchFail d with
  | some m => [.failure (searchFailMsg d m)]
  | none =>
    match e.tables.lookup d with
    | none => [.failure (searchFailMsg d (notFoundMsg d))]
    | some rows => processRows d (engineSearch e.dist q rows lim)

/-- `create_domain` of `context.py`: `db.create_table(name, schema=Document,
mode="overwrite")` inside a `try`; overwrite mode replaces any existing
table of that name with a fresh empty one and never fails because the name
exists.  Returns the confirmation or `Failed to ...` message (quotes around
the name elided). -/
def create_domain (e : Engine) (name : String) : Engine × String :=
  match e.createFail name with
  | some m => (e, "Failed to create domain: " ++ m)
  | none =>
    let ts :=
      if (e.tables.lookup name).isSome then updateTable e.tables name []
      else e.tables ++ [(name, [])]
    ({ e with tables := ts }, "Created domain " ++ name ++ " successfully")

/-- `delete_domain` of `context.py`: `db.drop_table(name)` inside a `try`
(the engine raises when the table is missing). -/
def delete_domain (e : Engine) (name : String) : Engine × String :=
  match e.dropFail name with
  | some m => (e, "Failed to delete domain: " ++ m)
  | none =>
    match e.tables.lookup name with
    | none => (e, "Failed to delete domain: " ++ notFoundMsg name)
    | some _ =>
      ({ e with tables := e.tables.filter fun p => p.1 ≠ name },
        "Deleted domain " ++ name ++ " successfully")

/-- `list_domains` of `context.py`: `list(db.table_names())`; raising is
modelled by `.error`. -/
def list_domains (e : Engine) : Except String (List String) :=
  match e.listFail with
  | some m => .error m
  | none => .ok (e.tables.map Prod.fst)

/-- The metadata value of the data dict built by `add_knowledge`:
`to_json(metadata).decode("utf-8") if metadata else None` — the truthiness
test sends both an absent and an empty dict to NULL. -/
def mdString (metadata : Option (List (List Char × Json))) : Option String :=
  match metadata with
  | none => none
  | some l => if l.isEmpty then none else some (to_json (.obj l))

/-- `add_knowledge` of `context.py`: open the table (raises `NotFound` when
the domain is missing), build the data dict with the serialized metadata,
then `table.add([data])` (whose raising, e.g. an embedding failure, the
`addFail` oracle models).  Everything is inside one `try`, so failures come
back as `Failed to ...` strings. -/
def add_knowledge (e : Engine) (domain text : String) (source : Option String)
    (metadata : Option (List (List Char × Json))) : Engine × String :=
  match e.tables.lookup domain with
  | none => (e, "Failed to add knowledge: " ++ notFoundMsg domain)
  | some rows =>
    match e.addFail domain with
    | some m => (e, "Failed to add knowledge: " ++ m)
    | none =>
      ({ e with tables := updateTable e.tables domain (rows ++ [⟨text, source, mdString metadata⟩]) },
        "Added knowledge to domain " ++ domain ++ " successfully")

/-- `search` of `context.py`: `domains = [domain] if domain else
db.table_names()` (note the truthiness test: an empty-string domain filter
also fans out), then the per-domain loop; `Except.error` models the one
uncaught exception path, `db.table_names()` raising. -/
def search (e : Engine) (query : String) (domain : Option String) (lim : Int) :
    Except String (List Entry) :=
  match domain with
  | some d =>
    if d = "" then
      match e.listFail with
      | some m => .error m
      | none => .ok ((e.tables.map Prod.fst).flatMap (searchDomain e query lim))
    else .ok (searchDomain e query lim d)
  | none =>
    match e.listFail with
    | some m => .error m
    | none => .ok ((e.tables.map Prod.fst).flatMap (searchDomain e query lim))

theorem lookup_updateTable (ts : List (String × List Document)) (d : String)
    (rows : List Document) (h : (ts.lookup d).isSome) :
    (updateTable ts d rows).lookup d = some rows := by
  induction ts with
  | nil => simp [List.lookup] at h
  | cons p ts ih =>
    obtain ⟨k, v⟩ := p
    by_cases hd : k = d
    · subst hd
      simp only [updateTable, List.map_cons]
      simp [List.lookup]
    · have hb : (d == k) = false := by
        simp only [beq_eq_false_iff_ne, ne_eq]
        exact fun hc => hd hc.symm
      simp only [updateTable, List.map_cons] at *
      rw [if_neg hd]
      simp only [List.lookup, hb] at h ⊢
      exact ih h

theorem lookup_append_missing (ts : List (String × List Document)) (name : String)
    (rows : List Document) (h : ts.lookup name = none) :
    (ts ++ [(name, rows)]).lookup name = some rows := by
  induction ts with
  | nil => simp [List.lookup]
  | cons p ts ih =>
    by_cases hb : (name == p.1) = true
    · simp [List.lookup, hb] at h
    · simp only [Bool.not_eq_true] at hb
      simp only [List.lookup, hb] at h
      simp only [List.cons_append, List.lookup, hb]
      exact ih h

theorem create_lookup (e : Engine) (name : String) (hc : e.createFail name = none) :
    ((create_domain e name).1).tables.lookup name = some [] := by
  unfold create_domain
  rw [hc]
  by_cases hex : (e.tables.lookup name).isSome
  · simp only [hex, if_true]
    exact lookup_updateTable e.tables name [] hex
  · simp only [hex, if_false]
    refine lookup_append_missing e.tables name [] ?_
    cases h : e.tables.lookup name with
    | none => rfl
    | some rows => rw [h] at hex; simp at hex

theorem lookup_of_mem_nodup (ts : List (String × List Document))
    (hnd : (ts.map Prod.fst).Nodup) (d : String) (rows : List Document)
    (hm : (d, rows) ∈ ts) : ts.lookup d = some rows := by
  induction ts with
  | nil => simp at hm
  | cons p ts ih =>
    rcases List.mem_cons.mp hm with rfl | hm'
    · simp [List.lookup]
    · simp only [List.map_cons, List.nodup_cons] at hnd
      have hne : ¬ d = p.1 := by
        intro hc
        exact hnd.1 (hc ▸ (List.mem_map.mpr ⟨(d, rows), hm', rfl⟩))
      have hb : (d == p.1) = false := by simp [hne]
      simp only [List.lookup, hb]
      exact ih hnd.2 hm'

theorem mem_insertLe {α : Type} (key : α → Nat) (a x : α) (l : List α) :
    x ∈ insertLe key a l ↔ x = a ∨ x ∈ l := by
  induction l with
  | nil => simp [insertLe]
  | cons b bs ih =>
    by_cases h : key a ≤ key b
    · simp [insertLe, h]
    · simp only [insertLe, if_neg h, List.mem_cons, ih]
      tauto

theorem mem_sortLe {α : Type} (key : α → Nat) (x : α) (l : List α) :
    x ∈ sortLe key l ↔ x ∈ l := by
  induction l with
  | nil => simp [sortLe]
  | cons a as ih => simp [sortLe, mem_insertLe, ih]

theorem length_insertLe {α : Type} (key : α → Nat) (a : α) (l : List α) :
    (insertLe key a l).length = l.length + 1 := by
  induction l with
  | nil => simp [insertLe]
  | cons b bs ih =>
    by_cases h : key a ≤ key b
    · simp [insertLe, h]
    · simp [insertLe, h, ih]

theorem length_sortLe {α : Type} (key : α → Nat) (l : List α) :
    (sortLe key l).length = l.length := by
  induction l with
  | nil => rfl
  | cons a as ih => simp [sortLe, length_insertLe, ih]

theorem pairwise_insertLe {α : Type} (key : α → Nat) (a : α) (l : List α)
    (h : l.Pairwise fun x y => key x ≤ key y) :
    (insertLe key a l).Pairwise fun x y => key x ≤ key y := by
  induction l with
  | nil => simp [insertLe]
  | cons b bs ih =>
    rcases List.pairwise_cons.mp h with ⟨hb, hbs⟩
    by_cases hab : key a ≤ key b
    · simp only [insertLe, if_pos hab]
      refine List.pairwise_cons.mpr ⟨?_, h⟩
      intro x hx
      rcases List.mem_cons.mp hx with rfl | hx'
      · exact hab
      · exact le_trans hab (hb x hx')
    · simp only [insertLe, if_neg hab]
      refine List.pairwise_cons.mpr ⟨?_, ih hbs⟩
      intro x hx
      rcases (mem_insertLe key a x bs).mp hx with rfl | hx'
      · omega
      · exact hb x hx'

theorem pairwise_sortLe {α : Type} (key : α → Nat) (l : List α) :
    (sortLe key l).Pairwise fun x y => key x ≤ key y := by
  induction l with
  | nil => simp [sortLe]
  | cons a as ih => exact pairwise_insertLe key a _ ih

theorem length_engineSearch (dst : String → String → Nat) (q : String)
    (rows : List Document) (lim : Int) :
    (engineSearch dst q rows lim).length = min lim.toNat rows.length := by
  simp [engineSearch, List.length_take, length_sortLe]

theorem pairwise_engineSearch (dst : String → String → Nat) (q : String)
    (rows : List Document) (lim : Int) :
    (engineSearch dst q rows lim).Pairwise fun a b => a.distance ≤ b.distance := by
  unfold engineSearch
  refine List.Pairwise.sublist (List.take_sublist _ _) ?_
  rw [List.pairwise_map]
  exact pairwise_sortLe _ rows

theorem mem_engineSearch (dst : String → String → Nat) (q : String)
    (rows : List Document) (lim : Int) (x : SRow)
    (hx : x ∈ engineSearch dst q rows lim) :
    ∃ r ∈ rows, x.metadata = r.metadata := by
  unfold engineSearch at hx
  have hx2 := (List.take_sublist _ _).subset hx
  rcases List.mem_map.mp hx2 with ⟨r, hr, rfl⟩
  exact ⟨r, (mem_sortLe _ r rows).mp hr, rfl⟩

/-- The hit dicts of a result list, in order (error markers dropped). -/
def hitsOf (es : List Entry) : List Hit :=
  es.filterMap fun en =>
    match en with
    | .hit h => some h
    | .failure _ => none

/-- A stored metadata string the result loop can process without raising:
absent, empty (left raw by the truthiness test), or parseable JSON. -/
def metaOk : Option String → Bool
  | none => true
  | some s => (s == "") || (from_json s).isSome

/-- A row whose metadata the result loop can process without raising. -/
def rowOk (r : Document) : Bool := metaOk r.metadata

/-- Engine state in which every stored metadata string deserializes. -/
def engineWF (e : Engine) : Bool :=
  e.tables.all fun p => p.2.all rowOk

theorem readRow_ok_fields (d : String) (r : SRow) (h : Hit)
    (hr : readRow d r = .ok h) : h.distance = r.distance ∧ h.domain = d := by
  unfold readRow readMeta at hr
  split at hr
  · cases hr; exact ⟨rfl, rfl⟩
  · split at hr
    · cases hr; exact ⟨rfl, rfl⟩
    · split at hr
      · cases hr; exact ⟨rfl, rfl⟩
      · cases hr

theorem readRow_ok_of_metaOk (d : String) (r : SRow)
    (hok : metaOk r.metadata = true) : ∃ h, readRow d r = .ok h := by
  unfold readRow
  cases hm : r.metadata with
  | none => exact ⟨_, rfl⟩
  | some s =>
    by_cases hs : s = ""
    · subst hs
      exact ⟨⟨r.text, r.source, .raw "", r.distance, d⟩, by simp [readMeta]⟩
    · rw [hm] at hok
      simp only [metaOk, Bool.or_eq_true, beq_iff_eq, hs, false_or,
        Option.isSome_iff_exists] at hok
      obtain ⟨j, hj⟩ := hok
      exact ⟨⟨r.text, r.source, .parsed j, r.distance, d⟩, by simp [readMeta, hs, hj]⟩

theorem length_processRows_all_ok (d : String) (rs : List SRow)
    (hok : ∀ r ∈ rs, metaOk r.metadata = true) :
    (processRows d rs).length = rs.length := by
  induction rs with
  | nil => rfl
  | cons r rest ih =>
    obtain ⟨h, hh⟩ := readRow_ok_of_metaOk d r (hok r (by simp))
    simp only [processRows, hh, List.length_cons]
    rw [ih fun x hx => hok x (by simp [hx])]

theorem length_hitsOf_processRows_le (d : String) (rs : List SRow) :
    (hitsOf (processRows d rs)).length ≤ rs.length := by
  induction rs with
  | nil => simp [processRows, hitsOf]
  | cons r rest ih =>
    cases hrr : readRow d r with
    | ok h =>
      simp only [processRows, hrr, hitsOf, List.filterMap_cons, List.length_cons]
      exact Nat.succ_le_succ ih
    | error m =>
      simp only [processRows, hrr, hitsOf, List.filterMap_cons, List.filterMap_nil]
      simp

theorem mem_hitsOf_processRows (d : String) (rs : List SRow) (h : Hit)
    (hh : h ∈ hitsOf (processRows d rs)) : ∃ r ∈ rs, readRow d r = .ok h := by
  induction rs with
  | nil => simp [processRows, hitsOf] at hh
  | cons r rest ih =>
    cases hrr : readRow d r with
    | ok h0 =>
      simp only [processRows, hrr, hitsOf, List.filterMap_cons] at hh
      rcases List.mem_cons.mp hh with rfl | hh'
      · exact ⟨r, by simp, hrr⟩
      · obtain ⟨r', hr', hok⟩ := ih hh'
        exact ⟨r', by simp [hr'], hok⟩
    | error m =>
      simp only [processRows, hrr, hitsOf, List.filterMap_cons, List.filterMap_nil] at hh
      simp at hh

theorem pairwise_hitsOf_processRows (d : String) (rs : List SRow)
    (hp : rs.Pairwise fun a b => a.distance ≤ b.distance) :
    (hitsOf (processRows d rs)).Pairwise fun a b => a.distance ≤ b.distance := by
  induction rs with
  | nil => simp [processRows, hitsOf]
  | cons r rest ih =>
    rcases List.pairwise_cons.mp hp with ⟨hr, hrest⟩
    cases hrr : readRow d r with
    | ok h0 =>
      simp only [processRows, hrr, hitsOf, List.filterMap_cons]
      refine List.pairwise_cons.mpr ⟨?_, ih hrest⟩
      intro x hx
      obtain ⟨r', hr', hok'⟩ := mem_hitsOf_processRows d rest x hx
      rw [(readRow_ok_fields d r h0 hrr).1, (readRow_ok_fields d r' x hok').1]
      exact hr r' hr'
    | error m =>
      simp only [processRows, hrr, hitsOf, List.filterMap_cons, List.filterMap_nil]
      simp

theorem hitsOf_searchDomain_pairwise (e : Engine) (q : String) (lim : Int) (d : String) :
    (hitsOf (searchDomain e q lim d)).Pairwise fun a b => a.distance ≤ b.distance := by
  unfold searchDomain
  split
  · simp [hitsOf]
  · split
    · simp [hitsOf]
    · exact pairwise_hitsOf_processRows d _ (pairwise_engineSearch e.dist q _ lim)

theorem hitsOf_searchDomain_length (e : Engine) (q : String) (lim : Int) (d : String) :
    (hitsOf (searchDomain e q lim d)).length ≤ lim.toNat := by
  unfold searchDomain
  split
  · simp [hitsOf]
  · split
    · simp [hitsOf]
    · refine le_trans (length_hitsOf_processRows_le d _) ?_
      rw [length_engineSearch]
      omega

theorem searchDomain_length_nofail (e : Engine) (q : String) (lim : Int) (d : String)
    (rows : List Document) (hf : e.searchFail d = none)
    (hl : e.tables.lookup d = some rows) (hok : ∀ r ∈ rows, rowOk r = true) :
    (searchDomain e q lim d).length = min lim.toNat rows.length := by
  unfold searchDomain
  rw [hf, hl]
  have hall : ∀ x ∈ engineSearch e.dist q rows lim, metaOk x.metadata = true := by
    intro x hx
    obtain ⟨r, hr, hmeta⟩ := mem_engineSearch e.dist q rows lim x hx
    rw [hmeta]
    exact hok r hr
  rw [length_processRows_all_ok d _ hall, length_engineSearch]

theorem searchDomain_fail (e : Engine) (q : String) (lim : Int) (d m : String)
    (hm : e.searchFail d = some m) :
    searchDomain e q lim d = [.failure (searchFailMsg d m)] := by
  unfold searchDomain
  rw [hm]

theorem search_fanout (e : Engine) (q : String) (lim : Int)
    (hl : e.listFail = none) :
    search e q none lim =
      .ok ((e.tables.map Prod.fst).flatMap (searchDomain e q lim)) := by
  unfold search
  rw [hl]

theorem create_state (e : Engine) (name : String) (hc : e.createFail name = none) :
    (create_domain e name).1 =
      { e with tables :=
          if (e.tables.lookup name).isSome then updateTable e.tables name []
          else e.tables ++ [(name, [])] } := by
  unfold create_domain
  rw [hc]

theorem add_state (e : Engine) (D t : String) (src : Option String)
    (md : Option (List (List Char × Json))) (rows : List Document)
    (hl : e.tables.lookup D = some rows) (haf : e.addFail D = none) :
    (add_knowledge e D t src md).1 =
      { e with tables := updateTable e.tables D (rows ++ [⟨t, src, mdString md⟩]) } := by
  unfold add_knowledge
  rw [hl, haf]

theorem to_json_obj_ne_empty (l : List (List Char × Json)) :
    to_json (Json.obj l) ≠ "" := by
  obtain ⟨c, cr, hc, _⟩ := render_head (Json.obj l)
  unfold to_json
  rw [hc]
  intro h
  have hd : (String.mk (c :: cr)).data = ("" : String).data := by rw [h]
  simp at hd

theorem engineSearch_singleton (dst : String → String → Nat) (q : String)
    (r : Document) (lim : Int) (hlim : 1 ≤ lim) :
    engineSearch dst q [r] lim = [⟨r.text, r.source, r.metadata, dst q r.text⟩] := by
  have h1 : lim.toNat = (lim.toNat - 1) + 1 := by omega
  unfold engineSearch
  rw [h1]
  simp [sortLe, insertLe]

theorem engineSearch_nil (dst : String → String → Nat) (q : String) (lim : Int) :
    engineSearch dst q [] lim = [] := by
  simp [engineSearch, sortLe]

theorem search_single_domain (e : Engine) (D q : String) (lim : Int) (hD : D ≠ "") :
    search e q (some D) lim = .ok (searchDomain e q lim D) := by
  simp [search, hD]

theorem create_preserves (e : Engine) (name : String) :
    (create_domain e name).1.searchFail = e.searchFail ∧
    (create_domain e name).1.createFail = e.createFail ∧
    (create_domain e name).1.addFail = e.addFail ∧
    (create_domain e name).1.dist = e.dist := by
  unfold create_domain
  cases e.createFail name
  · exact ⟨rfl, rfl, rfl, rfl⟩
  · exact ⟨rfl, rfl, rfl, rfl⟩

theorem add_preserves (e : Engine) (D t : String) (src : Option String)
    (md : Option (List (List Char × Json))) :
    (add_knowledge e D t src md).1.searchFail = e.searchFail ∧
    (add_knowledge e D t src md).1.createFail = e.createFail := by
  unfold add_knowledge
  cases e.tables.lookup D
  · exact ⟨rfl, rfl⟩
  · cases e.addFail D
    · exact ⟨rfl, rfl⟩
    · exact ⟨rfl, rfl⟩

theorem searchDomain_single (e : Engine) (q : String) (lim : Int) (D : String)
    (row : Document) (hsf : e.searchFail D = none)
    (hl : e.tables.lookup D = some [row]) (hlim : 1 ≤ lim) :
    searchDomain e q lim D =
      processRows D [⟨row.text, row.source, row.metadata, e.dist q row.text⟩] := by
  unfold searchDomain
  rw [hsf, hl]
  show processRows D (engineSearch e.dist q [row] lim) = _
  rw [engineSearch_singleton e.dist q row lim hlim]

theorem search_after_single_add (e : Engine) (D t q : String) (src : Option String)
    (md : Option (List (List Char × Json))) (lim : Int)
    (hD : D ≠ "") (hl : e.tables.lookup D = some [])
    (haf : e.addFail D = none) (hsf : e.searchFail D = none) (hlim : 1 ≤ lim) :
    search (add_knowledge e D t src md).1 q (some D) lim =
      .ok (processRows D [⟨t, src, mdString md, e.dist q t⟩]) := by
  rw [add_state e D t src md [] hl haf]
  rw [search_single_domain _ D q lim hD]
  rw [searchDomain_single
    { e with tables := updateTable e.tables D ([] ++ [⟨t, src, mdString md⟩]) }
    q lim D ⟨t, src, mdString md⟩ hsf
    (lookup_updateTable e.tables D ([] ++ [⟨t, src, mdString md⟩]) (by rw [hl]; rfl)) hlim]

/-- C1: in a fan-out search (no domain filter), a failing per-domain search
does not raise and does not abort the call: the failing domain contributes
exactly one inline error marker naming it and carrying the message, in
place of its hits, and every remaining target domain still contributes its
own entries (its hits, or its own marker). -/
theorem search_partial_failure_isolated (e : Engine) (q : String) (lim : Int)
    (d m : String) (pre post : List String)
    (hl : e.listFail = none) (hm : e.searchFail d = some m)
    (hnames : e.tables.map Prod.fst = pre ++ d :: post) :
    search e q none lim =
      .ok (pre.flatMap (searchDomain e q lim) ++
        .failure (searchFailMsg d m) :: post.flatMap (searchDomain e q lim)) := by
  rw [search_fanout e q lim hl, hnames]
  simp [searchDomain_fail e q lim d m hm]

def egA : Engine :=
  ⟨[("a", [⟨"ta", none, none⟩]), ("b", []), ("c", [⟨"tc", none, none⟩])],
    fun q t => q.length + t.length,
    fun _ => none, fun _ => none, fun _ => none,
    fun n => if n = "b" then some "boom" else none,
    none⟩

theorem search_partial_failure_isolated_witness :
    search egA "q" none 5 =
      .ok (["a"].flatMap (searchDomain egA "q" 5) ++
        .failure (searchFailMsg "b" "boom") :: ["c"].flatMap (searchDomain egA "q" 5)) :=
  search_partial_failure_isolated egA "q" 5 "b" "boom" ["a"] ["c"] rfl rfl rfl

/-- C5: adding to a domain absent from the registry fails: the call returns
the not-found failure outcome (surfaced to the caller as the operation's
failure result), writes nothing, and never creates the domain implicitly —
the engine state and hence the domain list are unchanged. -/
theorem add_missing_domain_fails (e : Engine) (D t : String)
    (src : Option String) (md : Option (List (List Char × Json)))
    (hl : e.tables.lookup D = none) :
    add_knowledge e D t src md = (e, "Failed to add knowledge: " ++ notFoundMsg D) ∧
    list_domains (add_knowledge e D t src md).1 = list_domains e := by
  have h1 : add_knowledge e D t src md =
      (e, "Failed to add knowledge: " ++ notFoundMsg D) := by
    unfold add_knowledge
    rw [hl]
  exact ⟨h1, by rw [h1]⟩

def egB : Engine :=
  ⟨[("a", [])], fun _ _ => 0, fun _ => none, fun _ => none, fun _ => none,
    fun _ => none, none⟩

theorem add_missing_domain_fails_witness :
    add_knowledge egB "nope" "t" none none =
        (egB, "Failed to add knowledge: " ++ notFoundMsg "nope") ∧
      list_domains (add_knowledge egB "nope" "t" none none).1 = list_domains egB :=
  add_missing_domain_fails egB "nope" "t" none none rfl

/-- C8: a fan-out search when the registry holds no domains returns the
empty list: no hits, no markers, and no error raised. -/
theorem search_empty_registry (e : Engine) (q : String) (lim : Int)
    (ht : e.tables = []) (hl : e.listFail = none) :
    search e q none lim = .ok [] := by
  rw [search_fanout e q lim hl, ht]
  rfl

def egEmpty : Engine :=
  ⟨[], fun _ _ => 0, fun _ => none, fun _ => none, fun _ => none, fun _ => none, none⟩

theorem search_empty_registry_witness : search egEmpty "q" none 5 = .ok [] :=
  search_empty_registry egEmpty "q" 5 rfl rfl

/-- C9: `add_knowledge` treats the empty metadata dict exactly like absent
metadata: the serialized field is NULL in both cases, and the whole call —
resulting state and message — coincides with the no-metadata call, so the
two writes are indistinguishable on read. -/
theorem add_empty_metadata_is_absent (e : Engine) (D t : String)
    (src : Option String) :
    mdString (some []) = none ∧
    add_knowledge e D t src (some []) = add_knowledge e D t src none :=
  ⟨rfl, rfl⟩

def egC : Engine :=
  ⟨[("a", [⟨"doc", none, none⟩])], fun _ _ => 0,
    fun _ => none, fun _ => none, fun _ => none, fun _ => none, none⟩

/-- C6 counterexample: `search` performs no input validation.  With an
empty query and a non-positive limit the concrete call below does not fail
with anything — it runs the per-domain loop and returns a normal result,
never an `InvalidInput` hard failure. -/
theorem search_invalid_input_cex :
    search egC "" none 0 = .ok [] ∧ ∀ m, search egC "" none 0 ≠ .error m := by
  constructor
  · rfl
  · intro m h
    rw [show search egC "" none 0 = .ok [] from rfl] at h
    cases h

/-- C6 amended: `search` never validates its inputs: for an empty query or
a non-positive limit the fan-out call still returns normally with a result
list (the only way the call itself can fail is the engine's table
enumeration raising). -/
theorem search_no_input_validation (e : Engine) (q : String) (lim : Int)
    (hinv : q = "" ∨ lim ≤ 0) (hl : e.listFail = none) :
    ∃ out, search e q none lim = .ok out :=
  ⟨_, search_fanout e q lim hl⟩

theorem search_no_input_validation_witness :
    ∃ out, search egC "" none 0 = .ok out :=
  search_no_input_validation egC "" 0 (Or.inl rfl) rfl

/-- C2: with no domain filter the limit applies per domain, not globally:
the fan-out result is the concatenation of per-domain blocks, each live
domain contributes exactly `min limit #rows` entries (all of them hits when
its search succeeds and its stored metadata is well formed), and the total
is the sum of those per-domain counts — up to N × limit entries over N
domains, never capped at `limit` overall. -/
theorem search_limit_per_domain (e : Engine) (q : String) (lim : Int)
    (hl : e.listFail = none) (hnd : (e.tables.map Prod.fst).Nodup)
    (hnf : ∀ p ∈ e.tables, e.searchFail p.1 = none)
    (hwf : ∀ p ∈ e.tables, ∀ r ∈ p.2, rowOk r = true) :
    search e q none lim =
        .ok ((e.tables.map Prod.fst).flatMap (searchDomain e q lim)) ∧
    (∀ p ∈ e.tables, (searchDomain e q lim p.1).length = min lim.toNat p.2.length) ∧
    ((e.tables.map Prod.fst).flatMap (searchDomain e q lim)).length =
      (e.tables.map fun p => min lim.toNat p.2.length).sum := by
  have hper : ∀ p ∈ e.tables,
      (searchDomain e q lim p.1).length = min lim.toNat p.2.length := by
    intro p hp
    exact searchDomain_length_nofail e q lim p.1 p.2 (hnf p hp)
      (lookup_of_mem_nodup e.tables hnd p.1 p.2 hp) (hwf p hp)
  refine ⟨search_fanout e q lim hl, hper, ?_⟩
  have h1 : ((e.tables.map Prod.fst).flatMap (searchDomain e q lim)).length =
      ((e.tables.map Prod.fst).map fun d => (searchDomain e q lim d).length).sum := by
    simp [List.length_flatMap, Function.comp_def]
  rw [h1, List.map_map]
  refine congrArg List.sum (List.map_congr_left ?_)
  intro p hp
  exact hper p hp

def egD : Engine :=
  ⟨[("a", [⟨"a1", none, none⟩, ⟨"a2", none, none⟩]),
    ("b", [⟨"b1", none, none⟩, ⟨"b2", none, none⟩])],
    fun _ t => t.length, fun _ => none, fun _ => none, fun _ => none,
    fun _ => none, none⟩

theorem search_limit_per_domain_witness :
    search egD "q" none 1 =
        .ok ((egD.tables.map Prod.fst).flatMap (searchDomain egD "q" 1)) ∧
    (∀ p ∈ egD.tables,
      (searchDomain egD "q" 1 p.1).length = min (1 : Int).toNat p.2.length) ∧
    ((egD.tables.map Prod.fst).flatMap (searchDomain egD "q" 1)).length =
      (egD.tables.map fun p => min (1 : Int).toNat p.2.length).sum :=
  search_limit_per_domain egD "q" 1 rfl (by decide) (fun p _ => rfl) (by decide)

/-- C7: the fan-out result is the per-domain blocks concatenated in the
iteration order of the target-domain set — no global re-ranking across
domains — and within each domain's block the hits are ordered by ascending
distance, at most `limit` of them. -/
theorem search_no_global_rerank (e : Engine) (q : String) (lim : Int)
    (hl : e.listFail = none) :
    search e q none lim =
        .ok ((e.tables.map Prod.fst).flatMap (searchDomain e q lim)) ∧
    ∀ d, (hitsOf (searchDomain e q lim d)).Pairwise
        (fun a b => a.distance ≤ b.distance) ∧
      (hitsOf (searchDomain e q lim d)).length ≤ lim.toNat :=
  ⟨search_fanout e q lim hl, fun d =>
    ⟨hitsOf_searchDomain_pairwise e q lim d, hitsOf_searchDomain_length e q lim d⟩⟩

theorem search_no_global_rerank_witness :
    search egD "x" none 2 =
        .ok ((egD.tables.map Prod.fst).flatMap (searchDomain egD "x" 2)) ∧
    ((hitsOf (searchDomain egD "x" 2 "a")).Pairwise
        (fun a b => a.distance ≤ b.distance) ∧
      (hitsOf (searchDomain egD "x" 2 "a")).length ≤ (2 : Int).toNat) :=
  ⟨(search_no_global_rerank egD "x" 2 rfl).1,
    (search_no_global_rerank egD "x" 2 rfl).2 "a"⟩

/-- C10: `create_domain`, `delete_domain` and `add_knowledge` are total and
report their outcome only through the returned string: on every input —
including injected storage-engine failures — the result message is either
the operation's confirmation or a message beginning `Failed to `. -/
theorem tools_report_via_message (e : Engine) (name D t : String)
    (src : Option String) (md : Option (List (List Char × Json))) :
    ((create_domain e name).2 = "Created domain " ++ name ++ " successfully" ∨
      ∃ m, (create_domain e name).2 = "Failed to " ++ m) ∧
    ((delete_domain e name).2 = "Deleted domain " ++ name ++ " successfully" ∨
      ∃ m, (delete_domain e name).2 = "Failed to " ++ m) ∧
    ((add_knowledge e D t src md).2 =
        "Added knowledge to domain " ++ D ++ " successfully" ∨
      ∃ m, (add_knowledge e D t src md).2 = "Failed to " ++ m) := by
  refine ⟨?_, ?_, ?_⟩
  · cases hc : e.createFail name with
    | none =>
      left
      unfold create_domain
      rw [hc]
    | some m =>
      right
      refine ⟨"create domain: " ++ m, ?_⟩
      unfold create_domain
      rw [hc, ← String.append_assoc]
      rfl
  · cases hd : e.dropFail name with
    | some m =>
      right
      refine ⟨"delete domain: " ++ m, ?_⟩
      unfold delete_domain
      rw [hd, ← String.append_assoc]
      rfl
    | none =>
      cases hlk : e.tables.lookup name with
      | none =>
        right
        refine ⟨"delete domain: " ++ notFoundMsg name, ?_⟩
        unfold delete_domain
        rw [hd, hlk, ← String.append_assoc]
        rfl
      | some rows =>
        left
        unfold delete_domain
        rw [hd, hlk]
  · cases hlk : e.tables.lookup D with
    | none =>
      right
      refine ⟨"add knowledge: " ++ notFoundMsg D, ?_⟩
      unfold add_knowledge
      rw [hlk, ← String.append_assoc]
      rfl
    | some rows =>
      cases ha : e.addFail D with
      | some m =>
        right
        refine ⟨"add knowledge: " ++ m, ?_⟩
        unfold add_knowledge
        rw [hlk, ha, ← String.append_assoc]
        rfl
      | none =>
        left
        unfold add_knowledge
        rw [hlk, ha]

/-- C4: `create_domain` succeeds whether or not a domain of that name
already exists — it never fails because the name exists (only an injected
engine fault can fail it) — and recreating a domain destroys its prior
content: after create(X); add(X, …); create(X), a search restricted to X
returns zero hits. -/
theorem create_domain_overwrite (e : Engine) (X t q : String)
    (src : Option String) (md : Option (List (List Char × Json))) (lim : Int)
    (hX : X ≠ "") (hcf : e.createFail X = none) (haf : e.addFail X = none)
    (hsf : e.searchFail X = none) :
    (create_domain e X).2 = "Created domain " ++ X ++ " successfully" ∧
    (add_knowledge (create_domain e X).1 X t src md).2 =
      "Added knowledge to domain " ++ X ++ " successfully" ∧
    search (create_domain (add_knowledge (create_domain e X).1 X t src md).1 X).1
      q (some X) lim = .ok [] := by
  refine ⟨?_, ?_, ?_⟩
  · unfold create_domain
    rw [hcf]
  · unfold add_knowledge
    rw [create_lookup e X hcf,
      show (create_domain e X).1.addFail X = none from by
        rw [(create_preserves e X).2.2.1]; exact haf]
  · have hc1 : (create_domain e X).1.createFail = e.createFail :=
      (create_preserves e X).2.1
    have hc2 : (add_knowledge (create_domain e X).1 X t src md).1.createFail
        = e.createFail := by
      rw [(add_preserves _ X t src md).2, hc1]
    have hs2 : (add_knowledge (create_domain e X).1 X t src md).1.searchFail
        = e.searchFail := by
      rw [(add_preserves _ X t src md).1, (create_preserves e X).1]
    have hs3 : (create_domain (add_knowledge (create_domain e X).1 X t src md).1 X).1.searchFail
        = e.searchFail := by
      rw [(create_preserves _ X).1, hs2]
    have hl3 := create_lookup (add_knowledge (create_domain e X).1 X t src md).1 X
      (by rw [hc2]; exact hcf)
    rw [search_single_domain _ X q lim hX]
    unfold searchDomain
    rw [show (create_domain (add_knowledge (create_domain e X).1 X t src md).1 X).1.searchFail X
      = none from by rw [hs3]; exact hsf]
    rw [hl3]
    simp [engineSearch_nil, processRows]

def egE : Engine :=
  ⟨[("x", [⟨"old", none, none⟩])], fun _ _ => 0, fun _ => none, fun _ => none,
    fun _ => none, fun _ => none, none⟩

theorem create_domain_overwrite_witness :
    (create_domain egE "x").2 = "Created domain " ++ "x" ++ " successfully" ∧
    (add_knowledge (create_domain egE "x").1 "x" "t" none none).2 =
      "Added knowledge to domain " ++ "x" ++ " successfully" ∧
    search (create_domain (add_knowledge (create_domain egE "x").1 "x" "t" none none).1 "x").1
      "q" (some "x") 5 = .ok [] :=
  create_domain_overwrite egE "x" "t" "q" none none 5 (by decide) rfl rfl rfl

def egF : Engine :=
  ⟨[("d", [])], fun _ _ => 0, fun _ => none, fun _ => none, fun _ => none,
    fun _ => none, none⟩

/-- C3 amended: every *non-empty* metadata object written through
`add_knowledge` is read back by `search` equal to what was written (the
serialize → store → load → deserialize round trip preserves keys and
values), and a document written with absent metadata reads back with
absent metadata.  The original claim fails only for the empty object,
which the write path's truthiness test conflates with absent metadata. -/
theorem add_search_metadata_round_trip (e : Engine) (D t q : String)
    (src : Option String) (l : List (List Char × Json)) (lim : Int)
    (hD : D ≠ "") (hl : e.tables.lookup D = some [])
    (haf : e.addFail D = none) (hsf : e.searchFail D = none)
    (hne : l ≠ []) (hlim : 1 ≤ lim) :
    search (add_knowledge e D t src (some l)).1 q (some D) lim =
      .ok [.hit ⟨t, src, .parsed (.obj l), e.dist q t, D⟩] ∧
    search (add_knowledge e D t src none).1 q (some D) lim =
      .ok [.hit ⟨t, src, .absent, e.dist q t, D⟩] := by
  have hemp : l.isEmpty = false := by
    cases l with
    | nil => exact absurd rfl hne
    | cons a as => rfl
  constructor
  · rw [search_after_single_add e D t q src (some l) lim hD hl haf hsf hlim]
    have hmd : mdString (some l) = some (to_json (.obj l)) := by
      simp [mdString, hemp]
    simp [processRows, readRow, readMeta, hmd, to_json_obj_ne_empty l,
      from_json_to_json]
  · rw [search_after_single_add e D t q src none lim hD hl haf hsf hlim]
    simp [processRows, readRow, readMeta, mdString]

theorem add_search_metadata_round_trip_witness :
    search (add_knowledge egF "d" "t" none (some [(['k'], Json.null)])).1 "q"
        (some "d") 5 =
      .ok [.hit ⟨"t", none, .parsed (.obj [(['k'], Json.null)]), egF.dist "q" "t", "d"⟩] ∧
    search (add_knowledge egF "d" "t" none none).1 "q" (some "d") 5 =
      .ok [.hit ⟨"t", none, .absent, egF.dist "q" "t", "d"⟩] :=
  add_search_metadata_round_trip egF "d" "t" "q" none [(['k'], Json.null)] 5
    (by decide) rfl rfl rfl (by simp) (by decide)

def egG : Engine :=
  ⟨[("d", [])], fun _ _ => 0, fun _ => none, fun _ => none, fun _ => none,
    fun _ => none, none⟩

/-- C3 counterexample: writing the empty metadata object and reading the
document back yields *absent* metadata, not the empty object — the write
path stores NULL for any falsy metadata value — refuting the original
claim at `m = {}`. -/
theorem metadata_empty_object_cex :
    search (add_knowledge egG "d" "t" none (some [])).1 "q" (some "d") 5 =
      .ok [.hit ⟨"t", none, .absent, 0, "d"⟩] ∧
    MetaOut.absent ≠ MetaOut.parsed (.obj []) := by
  constructor
  · rfl
  · intro h
    cases h
